import Mathlib

/-!
Verification of the genetic itinerary optimizer in `server/ga.py`.

Shallow embedding conventions:
* node identifiers are natural numbers (the source uses opaque hashable names);
* a graph is an association list from a node to its neighbor/weight list,
  mirroring the Python dict-of-dicts;
* fitness values live in `WithTop ℚ` (`⊤` plays the role of `float('inf')`);
* Python exceptions are modelled with `Except PyError`;
* every call into the `random` module is driven by an explicit oracle: a raw
  natural number `n` fed to `randint.{a,b}` becomes `a + n % (b + 1 - a)`,
  which realizes exactly the in-range results `random.randint(a, b)` can
  produce, and raises on the same empty ranges Python raises on.
-/

set_option allowUnsafeReducibility true

attribute [local semireducible] Rat.add Rat.sub Rat.mul Rat.div Rat.inv

/-- Errors that the Python code can raise at runtime. -/
inductive PyError : Type
  | valueError
  | keyError
  | indexError
  | zeroDivision
deriving DecidableEq

deriving instance DecidableEq for Except

/-- A graph is an association list: node ↦ list of (neighbor, weight),
mirroring the Python dict-of-dicts built by
`create_graph_with_manhattan_distances`. -/
abbrev Graph : Type := List (ℕ × List (ℕ × ℚ))

/-- The `random.randint(a, b)` primitive: inclusive range, raises
`ValueError` on an empty range; the oracle value `n` selects the result. -/
def randint (a b : ℕ) (n : ℕ) : Except PyError ℕ :=
  if a ≤ b then .ok (a + n % (b + 1 - a)) else .error .valueError

/-- Accumulator loop of `calculate_path_distance`: walks the consecutive
pairs of the path; `graph[path[i]]` raises `KeyError` when the node is
missing as a key, while a missing neighbor entry contributes `⊤`
(`dict.get(..., float('inf'))`). -/
def calcGo (graph : Graph) : List ℕ → WithTop ℚ → Except PyError (WithTop ℚ)
  | a :: b :: rest, acc =>
    match graph.lookup a with
    | none => .error .keyError
    | some nbrs =>
      calcGo graph (b :: rest) (acc + ((nbrs.lookup b).elim ⊤ (fun w => (w : WithTop ℚ))))
  | _, acc => .ok acc

/-- Embedding of `calculate_path_distance(graph, path)`. -/
def calculate_path_distance (graph : Graph) (path : List ℕ) : Except PyError (WithTop ℚ) :=
  calcGo graph path 0

/-- Weight of the edge from `a` to `b` as the specification describes it:
the stored weight when the edge exists, `+∞` otherwise (a missing node key
also means the edge does not exist). -/
def edgeWeightSpec (graph : Graph) (a b : ℕ) : WithTop ℚ :=
  match graph.lookup a with
  | none => ⊤
  | some nbrs =>
    match nbrs.lookup b with
    | none => ⊤
    | some w => (w : WithTop ℚ)

/-- Path fitness as the specification words it: the sum over consecutive
pairs of that pair's edge weight. -/
def specPathDistance (graph : Graph) (path : List ℕ) : WithTop ℚ :=
  ((path.zip path.tail).map (fun ab => edgeWeightSpec graph ab.1 ab.2)).sum

lemma calcGo_ok (graph : Graph) :
    ∀ (path : List ℕ) (acc : WithTop ℚ),
      (∀ a ∈ path.dropLast, (graph.lookup a).isSome) →
      calcGo graph path acc = .ok (acc + specPathDistance graph path) := by
  intro path
  induction path with
  | nil => intro acc _; simp [calcGo, specPathDistance]
  | cons a rest ih =>
    intro acc hkeys
    cases rest with
    | nil => simp [calcGo, specPathDistance]
    | cons b rest' =>
      have ha : (graph.lookup a).isSome := by
        apply hkeys
        simp [List.dropLast]
      obtain ⟨nbrs, hnbrs⟩ := Option.isSome_iff_exists.mp ha
      have hrest : ∀ x ∈ (b :: rest').dropLast, (graph.lookup x).isSome := by
        intro x hx
        apply hkeys
        simp only [List.dropLast_cons_of_ne_nil (l := b :: rest') (by simp)]
        exact List.mem_cons_of_mem _ hx
      have := ih acc hrest
      simp only [calcGo, hnbrs]
      rw [ih (acc + ((nbrs.lookup b).elim ⊤ (fun w => (w : WithTop ℚ)))) hrest]
      congr 1
      simp only [specPathDistance, List.zip_cons_cons, List.tail_cons, List.map_cons,
        List.sum_cons]
      rw [add_assoc]
      congr 2
      simp only [edgeWeightSpec, hnbrs]
      cases nbrs.lookup b <;> simp

/-- C7: for every graph and path whose non-final nodes are all present as
graph keys, `calculate_path_distance` returns (without raising) the sum over
consecutive pairs of that pair's edge weight, a missing edge contributing
`+∞` and thereby absorbing the whole sum to `+∞`. -/
theorem c7_path_distance_spec (graph : Graph) (path : List ℕ)
    (hkeys : ∀ a ∈ path.dropLast, (graph.lookup a).isSome) :
    calculate_path_distance graph path = .ok (specPathDistance graph path) := by
  have := calcGo_ok graph path 0 hkeys
  simpa [calculate_path_distance] using this

/-- C7 witness: a concrete graph where the final hop has no edge; the
evaluation succeeds and the total is `⊤`. -/
theorem c7_path_distance_spec_witness :
    (∀ a ∈ ([0, 1, 2] : List ℕ).dropLast,
        ((([(0, [(1, (2 : ℚ))]), (1, [])] : Graph)).lookup a).isSome) ∧
      calculate_path_distance [(0, [(1, (2 : ℚ))]), (1, [])] [0, 1, 2] =
        .ok (specPathDistance [(0, [(1, (2 : ℚ))]), (1, [])] [0, 1, 2]) ∧
      specPathDistance [(0, [(1, (2 : ℚ))]), (1, [])] [0, 1, 2] = ⊤ := by
  refine ⟨by decide, c7_path_distance_spec _ _ (by decide), by decide⟩

/-- Selection core of `random.sample(pool, k)`: draws `k` elements without
replacement, the oracle `draw` choosing the index of each successive pick.
As `draw` ranges over all functions this reaches exactly the samples Python
can produce. -/
def sampleGo {α : Type} : List α → ℕ → (ℕ → ℕ) → ℕ → List α
  | _, 0, _, _ => []
  | pool, k + 1, draw, step =>
    if h : pool.length = 0 then []
    else
      let idx := draw step % pool.length
      pool.get ⟨idx, Nat.mod_lt _ (Nat.pos_of_ne_zero h)⟩ ::
        sampleGo (pool.eraseIdx idx) k draw (step + 1)

/-- Embedding of `random.sample(pool, k)`: raises `ValueError` when the
requested size is negative or exceeds the pool, as Python does. -/
def pySample {α : Type} (pool : List α) (k : ℤ) (draw : ℕ → ℕ) :
    Except PyError (List α) :=
  if k < 0 ∨ (pool.length : ℤ) < k then .error .valueError
  else .ok (sampleGo pool k.toNat draw 0)

lemma sampleGo_length {α : Type} :
    ∀ (pool : List α) (k : ℕ) (draw : ℕ → ℕ) (step : ℕ), k ≤ pool.length →
      (sampleGo pool k draw step).length = k := by
  intro pool k
  induction k generalizing pool with
  | zero => intro draw step _; simp [sampleGo]
  | succ k ih =>
    intro draw step hk
    have hpos : pool.length ≠ 0 := by omega
    simp only [sampleGo, dif_neg hpos, List.length_cons]
    rw [ih]
    have := List.length_eraseIdx pool (draw step % pool.length)
    rw [this, if_pos (Nat.mod_lt _ (Nat.pos_of_ne_zero hpos))]
    omega

lemma sampleGo_subset {α : Type} :
    ∀ (pool : List α) (k : ℕ) (draw : ℕ → ℕ) (step : ℕ),
      ∀ x ∈ sampleGo pool k draw step, x ∈ pool := by
  intro pool k
  induction k generalizing pool with
  | zero => intro draw step x hx; simp [sampleGo] at hx
  | succ k ih =>
    intro draw step x hx
    by_cases hpos : pool.length = 0
    · simp [sampleGo, hpos] at hx
    · simp only [sampleGo, dif_neg hpos, List.mem_cons] at hx
      rcases hx with hx | hx
      · subst hx; exact List.get_mem _ _ _
      · exact List.eraseIdx_subset _ _ (ih _ draw (step + 1) x hx)

lemma get_not_mem_eraseIdx {α : Type} [DecidableEq α] (pool : List α)
    (hnd : pool.Nodup) (idx : ℕ) (h : idx < pool.length) :
    pool.get ⟨idx, h⟩ ∉ pool.eraseIdx idx := by
  intro hmem
  generalize hx : pool.get ⟨idx, h⟩ = x at hmem
  have hcount1 : pool.count x ≤ 1 := List.nodup_iff_count_le_one.mp hnd _
  have hdrop : pool.drop idx = x :: pool.drop (idx + 1) := by
    rw [List.drop_eq_get_cons h, hx]
  have hsplit : pool.count x = (pool.take idx).count x + (pool.drop idx).count x := by
    conv_lhs => rw [← List.take_append_drop idx pool]
    exact List.count_append _ _ _
  have hdc : (pool.drop idx).count x = (pool.drop (idx + 1)).count x + 1 := by
    rw [hdrop, List.count_cons_self]
  have herase : (pool.eraseIdx idx).count x =
      (pool.take idx).count x + (pool.drop (idx + 1)).count x := by
    rw [List.eraseIdx_eq_take_drop_succ, List.count_append]
  have hpos : 0 < (pool.eraseIdx idx).count x := List.count_pos_iff.mpr hmem
  omega

lemma sampleGo_nodup {α : Type} [DecidableEq α] :
    ∀ (pool : List α) (k : ℕ) (draw : ℕ → ℕ) (step : ℕ), pool.Nodup →
      (sampleGo pool k draw step).Nodup := by
  intro pool k
  induction k generalizing pool with
  | zero => intro draw step _; simp [sampleGo]
  | succ k ih =>
    intro draw step hnd
    by_cases hpos : pool.length = 0
    · simp [sampleGo, hpos]
    · simp only [sampleGo, dif_neg hpos, List.nodup_cons]
      constructor
      · intro hmem
        exact get_not_mem_eraseIdx pool hnd _ _ (sampleGo_subset _ _ _ _ _ hmem)
      · exact ih _ draw (step + 1) (List.Nodup.eraseIdx _ hnd)

/-- Interior node universe of `CreateInitialPopulation`: the graph keys with
all anchor nodes removed, then `start` and `end` removed, as a duplicate-free
list (the Python code takes `set(attractions) - {start, end}`). -/
def interiorUniverse (graph : Graph) (start_attraction end_attraction : ℕ)
    (all_start_end_points : List ℕ) : List ℕ :=
  (((graph.map Prod.fst).filter (fun a => decide (a ∉ all_start_end_points))).filter
      (fun a => decide (a ≠ start_attraction ∧ a ≠ end_attraction))).dedup

/-- Loop body of `CreateInitialPopulation`: draw the interior sample
(`random.sample` may raise), build `[start] ++ sample ++ [end]`, and keep
the path unless an identical one was already produced. -/
def initStep (graph : Graph) (start_attraction end_attraction : ℕ)
    (final_path_size : ℤ) (all_start_end_points : List ℕ)
    (osample : ℕ → ℕ → ℕ) (acc : List (List ℕ)) (i : ℕ) :
    Except PyError (List (List ℕ)) :=
  let remaining := interiorUniverse graph start_attraction end_attraction
    all_start_end_points
  let k : ℤ := min (remaining.length : ℤ) (final_path_size - 2)
  match pySample remaining k (osample i) with
  | .error err => .error err
  | .ok mids =>
    let path := start_attraction :: (mids ++ [end_attraction])
    .ok (if path ∈ acc then acc else acc ++ [path])

/-- Embedding of `CreateInitialPopulation`: `size` attempts of `initStep`.
`final_path_size` is an integer because Python computes
`final_path_size - 2`, which `random.sample` rejects when negative. -/
def CreateInitialPopulation (size : ℕ) (graph : Graph)
    (start_attraction end_attraction : ℕ) (final_path_size : ℤ)
    (all_start_end_points : List ℕ) (osample : ℕ → ℕ → ℕ) :
    Except PyError (List (List ℕ)) :=
  (List.range size).foldlM
    (initStep graph start_attraction end_attraction final_path_size
      all_start_end_points osample)
    []

/-- Shape invariant of the initial-population candidates. -/
def GoodInitPath (graph : Graph) (start_attraction end_attraction : ℕ)
    (final_path_size : ℤ) (all_start_end_points : List ℕ) (path : List ℕ) : Prop :=
  ∃ mid : List ℕ,
    path = start_attraction :: (mid ++ [end_attraction]) ∧
    mid.Nodup ∧
    (∀ x ∈ mid, x ∈ graph.map Prod.fst ∧ x ∉ all_start_end_points ∧
      x ≠ start_attraction ∧ x ≠ end_attraction) ∧
    (path.length : ℤ) =
      min (((interiorUniverse graph start_attraction end_attraction
        all_start_end_points).length : ℤ) + 2) final_path_size

lemma initStep_ok (graph : Graph) (start_attraction end_attraction : ℕ)
    (final_path_size : ℤ) (all_start_end_points : List ℕ) (osample : ℕ → ℕ → ℕ)
    (hfps : 2 ≤ final_path_size) (i : ℕ) (acc : List (List ℕ)) :
    ∃ path : List ℕ,
      GoodInitPath graph start_attraction end_attraction final_path_size
        all_start_end_points path ∧
      initStep graph start_attraction end_attraction final_path_size
        all_start_end_points osample acc i =
        .ok (if path ∈ acc then acc else acc ++ [path]) := by
  have hk0 : 0 ≤ min ((interiorUniverse graph start_attraction end_attraction
      all_start_end_points).length : ℤ) (final_path_size - 2) := by
    apply le_min
    · exact Int.natCast_nonneg _
    · omega
  have hkle : min ((interiorUniverse graph start_attraction end_attraction
        all_start_end_points).length : ℤ) (final_path_size - 2) ≤
      ((interiorUniverse graph start_attraction end_attraction
        all_start_end_points).length : ℤ) := min_le_left _ _
  have hsample : pySample (interiorUniverse graph start_attraction end_attraction
        all_start_end_points)
      (min ((interiorUniverse graph start_attraction end_attraction
        all_start_end_points).length : ℤ) (final_path_size - 2)) (osample i) =
      .ok (sampleGo (interiorUniverse graph start_attraction end_attraction
        all_start_end_points)
        (min ((interiorUniverse graph start_attraction end_attraction
          all_start_end_points).length : ℤ) (final_path_size - 2)).toNat
        (osample i) 0) := by
    simp only [pySample]
    rw [if_neg]
    push_neg
    exact ⟨hk0, hkle⟩
  have hlen : (sampleGo (interiorUniverse graph start_attraction end_attraction
        all_start_end_points)
      (min ((interiorUniverse graph start_attraction end_attraction
        all_start_end_points).length : ℤ) (final_path_size - 2)).toNat
      (osample i) 0).length =
      (min ((interiorUniverse graph start_attraction end_attraction
        all_start_end_points).length : ℤ) (final_path_size - 2)).toNat :=
    sampleGo_length _ _ _ _ (by omega)
  refine ⟨start_attraction :: (sampleGo (interiorUniverse graph start_attraction
      end_attraction all_start_end_points)
      (min ((interiorUniverse graph start_attraction end_attraction
        all_start_end_points).length : ℤ) (final_path_size - 2)).toNat
      (osample i) 0 ++ [end_attraction]), ?_, ?_⟩
  · refine ⟨_, rfl, ?_, ?_, ?_⟩
    · exact sampleGo_nodup _ _ _ _ (List.nodup_dedup _)
    · intro x hx
      have hxr := sampleGo_subset _ _ _ _ _ hx
      simp only [interiorUniverse, List.mem_dedup, List.mem_filter,
        decide_eq_true_eq] at hxr
      exact ⟨hxr.1.1, hxr.1.2, hxr.2.1, hxr.2.2⟩
    · simp only [List.length_cons, List.length_append, List.length_singleton,
        List.length_nil, hlen]
      have hmin : (((min ((interiorUniverse graph start_attraction end_attraction
            all_start_end_points).length : ℤ) (final_path_size - 2)).toNat : ℤ)) =
          min ((interiorUniverse graph start_attraction end_attraction
            all_start_end_points).length : ℤ) (final_path_size - 2) :=
        Int.toNat_of_nonneg hk0
      push_cast
      rw [hmin]
      rcases min_cases ((interiorUniverse graph start_attraction end_attraction
          all_start_end_points).length : ℤ) (final_path_size - 2) with
        ⟨h1, h2⟩ | ⟨h1, h2⟩ <;>
      rcases min_cases (((interiorUniverse graph start_attraction end_attraction
          all_start_end_points).length : ℤ) + 2) final_path_size with
        ⟨h3, h4⟩ | ⟨h3, h4⟩ <;>
      rw [h1, h3] <;> omega
  · simp only [initStep, hsample]

/-- C6: with `final_path_size ≥ 2`, `CreateInitialPopulation` succeeds and
every produced candidate is `start :: interior ++ [end]` with duplicate-free
interior nodes drawn from the graph keys minus the anchor set minus
`{start, end}`, and total length `min(final_path_size, achievable + 2)`. -/
theorem c6_initial_population_shape (size : ℕ) (graph : Graph)
    (start_attraction end_attraction : ℕ) (final_path_size : ℤ)
    (all_start_end_points : List ℕ) (osample : ℕ → ℕ → ℕ)
    (hfps : 2 ≤ final_path_size) :
    ∃ pop : List (List ℕ),
      CreateInitialPopulation size graph start_attraction end_attraction
        final_path_size all_start_end_points osample = .ok pop ∧
      ∀ path ∈ pop,
        GoodInitPath graph start_attraction end_attraction final_path_size
          all_start_end_points path := by
  have main : ∀ (l : List ℕ) (acc : List (List ℕ)),
      (∀ p ∈ acc, GoodInitPath graph start_attraction end_attraction
        final_path_size all_start_end_points p) →
      ∃ pop : List (List ℕ),
        l.foldlM
          (initStep graph start_attraction end_attraction final_path_size
            all_start_end_points osample) acc = .ok pop ∧
        ∀ p ∈ pop, GoodInitPath graph start_attraction end_attraction
          final_path_size all_start_end_points p := by
    intro l
    induction l with
    | nil => intro acc hacc; exact ⟨acc, rfl, hacc⟩
    | cons i rest ih =>
      intro acc hacc
      obtain ⟨path, hgood, hstep⟩ := initStep_ok graph start_attraction
        end_attraction final_path_size all_start_end_points osample hfps i acc
      have hacc' : ∀ p ∈ (if path ∈ acc then acc else acc ++ [path]),
          GoodInitPath graph start_attraction end_attraction final_path_size
            all_start_end_points p := by
        intro p hp
        by_cases hmem : path ∈ acc
        · rw [if_pos hmem] at hp; exact hacc p hp
        · rw [if_neg hmem, List.mem_append, List.mem_singleton] at hp
          rcases hp with hp | hp
          · exact hacc p hp
          · subst hp; exact hgood
      obtain ⟨pop, hfold, hpop⟩ := ih (if path ∈ acc then acc else acc ++ [path]) hacc'
      refine ⟨pop, ?_, hpop⟩
      rw [List.foldlM_cons, hstep]
      exact hfold
  obtain ⟨pop, hfold, hpop⟩ := main (List.range size) [] (by simp)
  exact ⟨pop, hfold, hpop⟩

/-- C6 witness: a concrete 4-node graph, anchors `{0, 3}`, path length 3. -/
theorem c6_initial_population_shape_witness :
    ∃ pop : List (List ℕ),
      CreateInitialPopulation 2 [(0, []), (1, []), (2, []), (3, [])] 0 3 3 [0, 3]
        (fun _ _ => 0) = .ok pop ∧
      ∀ path ∈ pop,
        GoodInitPath [(0, []), (1, []), (2, []), (3, [])] 0 3 3 [0, 3] path :=
  c6_initial_population_shape 2 [(0, []), (1, []), (2, []), (3, [])] 0 3 3 [0, 3]
    (fun _ _ => 0) (by decide)

/-- Embedding of `min(tournament, key=lambda item: item[1])`: raises
`ValueError` on an empty sequence, otherwise returns the first entry whose
second component (the fitness) is minimal, exactly as Python's `min` with a
key does. -/
def pyMinBySnd (l : List (ℕ × WithTop ℚ)) : Except PyError (ℕ × WithTop ℚ) :=
  match l with
  | [] => .error .valueError
  | x :: xs => .ok (xs.foldl (fun acc y => if y.2 < acc.2 then y else acc) x)

lemma foldlMin_mem (xs : List (ℕ × WithTop ℚ)) (x : ℕ × WithTop ℚ) :
    xs.foldl (fun acc y => if y.2 < acc.2 then y else acc) x = x ∨
      xs.foldl (fun acc y => if y.2 < acc.2 then y else acc) x ∈ xs := by
  induction xs generalizing x with
  | nil => left; rfl
  | cons y ys ih =>
    simp only [List.foldl_cons]
    rcases ih (if y.2 < x.2 then y else x) with h | h
    · rw [h]
      by_cases hy : y.2 < x.2
      · right; rw [if_pos hy]; exact List.mem_cons_self _ _
      · left; rw [if_neg hy]
    · right; exact List.mem_cons_of_mem _ h

lemma foldlMin_le (xs : List (ℕ × WithTop ℚ)) (x : ℕ × WithTop ℚ) :
    (xs.foldl (fun acc y => if y.2 < acc.2 then y else acc) x).2 ≤ x.2 ∧
      ∀ y ∈ xs, (xs.foldl (fun acc y => if y.2 < acc.2 then y else acc) x).2 ≤ y.2 := by
  induction xs generalizing x with
  | nil => exact ⟨le_refl _, by simp⟩
  | cons y ys ih =>
    simp only [List.foldl_cons]
    obtain ⟨ih1, ih2⟩ := ih (if y.2 < x.2 then y else x)
    have hle : (if y.2 < x.2 then y else x).2 ≤ x.2 := by
      by_cases hy : y.2 < x.2
      · rw [if_pos hy]; exact le_of_lt hy
      · rw [if_neg hy]
    have hley : (if y.2 < x.2 then y else x).2 ≤ y.2 := by
      by_cases hy : y.2 < x.2
      · rw [if_pos hy]
      · rw [if_neg hy]; exact le_of_not_lt hy
    refine ⟨le_trans ih1 hle, ?_⟩
    intro z hz
    rcases List.mem_cons.mp hz with hz | hz
    · subst hz; exact le_trans ih1 hley
    · exact ih2 z hz

lemma pyMinBySnd_ok (l : List (ℕ × WithTop ℚ)) (hne : l ≠ []) :
    ∃ w, pyMinBySnd l = .ok w ∧ w ∈ l ∧ ∀ y ∈ l, w.2 ≤ y.2 := by
  cases l with
  | nil => exact absurd rfl hne
  | cons x xs =>
    refine ⟨_, rfl, ?_, ?_⟩
    · rcases foldlMin_mem xs x with h | h
      · rw [h]; exact List.mem_cons_self _ _
      · exact List.mem_cons_of_mem _ h
    · intro y hy
      obtain ⟨h1, h2⟩ := foldlMin_le xs x
      rcases List.mem_cons.mp hy with hy | hy
      · subst hy; exact h1
      · exact h2 y hy

/-- One slot of `CreateMatingPool`: run a tournament
(`random.sample(RankList, tournament_size)`), take the minimum-fitness
entry, and look its index up in the population. -/
def matingSlot (population : List (List ℕ)) (RankList : List (ℕ × WithTop ℚ))
    (tournament_size : ℕ) (omate : ℕ → ℕ → ℕ) (slot : ℕ) :
    Except PyError (List ℕ) :=
  match pySample RankList (tournament_size : ℤ) (omate slot) with
  | .error e => .error e
  | .ok tour =>
    match pyMinBySnd tour with
    | .error e => .error e
    | .ok w =>
      match population.get? w.1 with
      | some p => .ok p
      | none => .error .indexError

/-- Embedding of `CreateMatingPool(population, RankList, tournament_size=3)`:
one tournament per population slot. -/
def CreateMatingPool (population : List (List ℕ))
    (RankList : List (ℕ × WithTop ℚ)) (omate : ℕ → ℕ → ℕ)
    (tournament_size : ℕ := 3) : Except PyError (List (List ℕ)) :=
  (List.range population.length).mapM
    (matingSlot population RankList tournament_size omate)

lemma mapM_ok_of_forall {α β : Type} (f : α → Except PyError β) :
    ∀ l : List α, (∀ a ∈ l, ∃ b, f a = .ok b) →
      ∃ l', l.mapM f = .ok l' ∧ l'.length = l.length ∧
        (∀ (i : ℕ) (a : α), l.get? i = some a →
          ∃ b, l'.get? i = some b ∧ f a = .ok b) ∧
        (∀ b ∈ l', ∃ a ∈ l, f a = .ok b) := by
  intro l
  induction l with
  | nil => intro _; exact ⟨[], rfl, rfl, by simp, by simp⟩
  | cons a rest ih =>
    intro h
    obtain ⟨b, hb⟩ := h a (List.mem_cons_self _ _)
    obtain ⟨l', hl', hlen, hget, hmem⟩ := ih (fun x hx => h x (List.mem_cons_of_mem _ hx))
    refine ⟨b :: l', ?_, by simp [hlen], ?_, ?_⟩
    · rw [List.mapM_cons, hb, hl']
      rfl
    · intro i x hx
      cases i with
      | zero =>
        simp only [List.get?_cons_zero, Option.some.injEq] at hx
        subst hx
        exact ⟨b, rfl, hb⟩
      | succ i =>
        simp only [List.get?_cons_succ] at hx ⊢
        exact hget i x hx
    · intro c hc
      rcases List.mem_cons.mp hc with hc | hc
      · subst hc; exact ⟨a, List.mem_cons_self _ _, hb⟩
      · obtain ⟨x, hx, hfx⟩ := hmem c hc
        exact ⟨x, List.mem_cons_of_mem _ hx, hfx⟩

lemma mapM_cons_error {α β : Type} (f : α → Except PyError β) (a : α) (l : List α)
    (e : PyError) (h : f a = .error e) : (a :: l).mapM f = .error e := by
  rw [List.mapM_cons, h]
  rfl

lemma matingSlot_ok_mem (population : List (List ℕ))
    (RankList : List (ℕ × WithTop ℚ)) (tournament_size : ℕ)
    (omate : ℕ → ℕ → ℕ) (slot : ℕ) (p : List ℕ)
    (h : matingSlot population RankList tournament_size omate slot = .ok p) :
    p ∈ population := by
  unfold matingSlot at h
  repeat' split at h
  all_goals first
    | (cases h; exact List.get?_mem (by assumption))
    | exact absurd h (by simp)

lemma matingSlot_ok_of_bounds (population : List (List ℕ))
    (RankList : List (ℕ × WithTop ℚ)) (tournament_size : ℕ)
    (omate : ℕ → ℕ → ℕ) (slot : ℕ)
    (hidx : ∀ e ∈ RankList, e.1 < population.length)
    (h1 : 1 ≤ tournament_size) (ht : tournament_size ≤ RankList.length) :
    ∃ w : ℕ × WithTop ℚ,
      w ∈ sampleGo RankList tournament_size (omate slot) 0 ∧
      (∀ y ∈ sampleGo RankList tournament_size (omate slot) 0, w.2 ≤ y.2) ∧
      (sampleGo RankList tournament_size (omate slot) 0).length = tournament_size ∧
      (∀ y ∈ sampleGo RankList tournament_size (omate slot) 0, y ∈ RankList) ∧
      matingSlot population RankList tournament_size omate slot =
        .ok ((population.get? w.1).getD []) ∧
      (population.get? w.1).isSome := by
  have hsample : pySample RankList (tournament_size : ℤ) (omate slot) =
      .ok (sampleGo RankList tournament_size (omate slot) 0) := by
    simp only [pySample]
    rw [if_neg (by push_neg; constructor <;> [positivity; exact_mod_cast ht])]
    norm_num
  have hlen : (sampleGo RankList tournament_size (omate slot) 0).length =
      tournament_size := sampleGo_length _ _ _ _ ht
  have hne : sampleGo RankList tournament_size (omate slot) 0 ≠ [] := by
    intro hnil
    rw [hnil] at hlen
    simp at hlen
    omega
  obtain ⟨w, hmin, hwmem, hwle⟩ := pyMinBySnd_ok _ hne
  have hwrl : w ∈ RankList := sampleGo_subset _ _ _ _ _ hwmem
  have hwlt : w.1 < population.length := hidx w hwrl
  have hget : population.get? w.1 = some (population.get ⟨w.1, hwlt⟩) :=
    List.get?_eq_get hwlt
  refine ⟨w, hwmem, hwle, hlen, fun y hy => sampleGo_subset _ _ _ _ _ hy, ?_, ?_⟩
  · simp only [matingSlot, hsample, hmin, hget]
    rfl
  · rw [hget]; rfl

/-- C8 (amended): with a rank list whose indices address the population and
`1 ≤ tournament_size ≤ n`, `CreateMatingPool` returns exactly `n` paths,
each one the population entry named by a minimum-fitness member of that
slot's tournament (a size-`tournament_size` subsample of the rank list); and
with `tournament_size > n ≥ 1` it raises `ValueError` instead of silently
truncating. -/
theorem c8_mating_pool_amended (population : List (List ℕ))
    (RankList : List (ℕ × WithTop ℚ)) (omate : ℕ → ℕ → ℕ)
    (tournament_size : ℕ)
    (hlen : RankList.length = population.length)
    (hidx : ∀ e ∈ RankList, e.1 < population.length) :
    (1 ≤ tournament_size → tournament_size ≤ RankList.length →
      ∃ pool : List (List ℕ),
        CreateMatingPool population RankList omate tournament_size = .ok pool ∧
        pool.length = population.length ∧
        (∀ p ∈ pool, p ∈ population) ∧
        ∀ slot : ℕ, slot < population.length →
          ∃ w : ℕ × WithTop ℚ,
            w ∈ sampleGo RankList tournament_size (omate slot) 0 ∧
            (∀ y ∈ sampleGo RankList tournament_size (omate slot) 0, w.2 ≤ y.2) ∧
            (sampleGo RankList tournament_size (omate slot) 0).length =
              tournament_size ∧
            (∀ y ∈ sampleGo RankList tournament_size (omate slot) 0,
              y ∈ RankList) ∧
            pool.get? slot = population.get? w.1) ∧
    (RankList.length < tournament_size → 1 ≤ population.length →
      CreateMatingPool population RankList omate tournament_size =
        .error .valueError) := by
  constructor
  · intro h1 ht
    have hall : ∀ slot ∈ List.range population.length,
        ∃ b, matingSlot population RankList tournament_size omate slot = .ok b := by
      intro slot _
      obtain ⟨w, _, _, _, _, hok, _⟩ := matingSlot_ok_of_bounds population RankList
        tournament_size omate slot hidx h1 ht
      exact ⟨_, hok⟩
    obtain ⟨pool, hmapM, hplen, hget, hmem⟩ :=
      mapM_ok_of_forall _ (List.range population.length) hall
    refine ⟨pool, hmapM, by rw [hplen, List.length_range], ?_, ?_⟩
    · intro p hp
      obtain ⟨slot, _, hok⟩ := hmem p hp
      exact matingSlot_ok_mem _ _ _ _ _ _ hok
    · intro slot hslot
      obtain ⟨w, hw1, hw2, hw3, hw4, hok, hsome⟩ := matingSlot_ok_of_bounds
        population RankList tournament_size omate slot hidx h1 ht
      obtain ⟨b, hb, hfb⟩ := hget slot slot (List.get?_range hslot)
      refine ⟨w, hw1, hw2, hw3, hw4, ?_⟩
      rw [hok] at hfb
      cases hfb
      rw [hb]
      obtain ⟨q, hq⟩ := Option.isSome_iff_exists.mp hsome
      rw [hq]
      rfl
  · intro hlt hpop
    obtain ⟨m, hm⟩ : ∃ m, population.length = m + 1 :=
      ⟨population.length - 1, by omega⟩
    have hslot0 : matingSlot population RankList tournament_size omate 0 =
        .error .valueError := by
      unfold matingSlot
      have : pySample RankList (tournament_size : ℤ) (omate 0) =
          .error .valueError := by
        simp only [pySample]
        rw [if_pos (Or.inr (by exact_mod_cast hlt))]
      rw [this]
    unfold CreateMatingPool
    rw [hm, List.range_succ_eq_map]
    exact mapM_cons_error _ _ _ _ hslot0

/-- C8 witness: population of one path, rank list `[(0, 2)]`,
tournament size 1. -/
theorem c8_mating_pool_amended_witness :
    (1 ≤ 1 → 1 ≤ ([((0 : ℕ), (2 : WithTop ℚ))] : List (ℕ × WithTop ℚ)).length →
      ∃ pool : List (List ℕ),
        CreateMatingPool [[5, 6]] [((0 : ℕ), (2 : WithTop ℚ))] (fun _ _ => 0) 1 =
          .ok pool ∧
        pool.length = ([[5, 6]] : List (List ℕ)).length ∧
        (∀ p ∈ pool, p ∈ ([[5, 6]] : List (List ℕ))) ∧
        ∀ slot : ℕ, slot < ([[5, 6]] : List (List ℕ)).length →
          ∃ w : ℕ × WithTop ℚ,
            w ∈ sampleGo [((0 : ℕ), (2 : WithTop ℚ))] 1 ((fun _ _ => 0) slot) 0 ∧
            (∀ y ∈ sampleGo [((0 : ℕ), (2 : WithTop ℚ))] 1 ((fun _ _ => 0) slot) 0,
              w.2 ≤ y.2) ∧
            (sampleGo [((0 : ℕ), (2 : WithTop ℚ))] 1 ((fun _ _ => 0) slot) 0).length =
              1 ∧
            (∀ y ∈ sampleGo [((0 : ℕ), (2 : WithTop ℚ))] 1 ((fun _ _ => 0) slot) 0,
              y ∈ ([((0 : ℕ), (2 : WithTop ℚ))] : List (ℕ × WithTop ℚ))) ∧
            pool.get? slot = ([[5, 6]] : List (List ℕ)).get? w.1) ∧
    (([((0 : ℕ), (2 : WithTop ℚ))] : List (ℕ × WithTop ℚ)).length < 1 →
      1 ≤ ([[5, 6]] : List (List ℕ)).length →
      CreateMatingPool [[5, 6]] [((0 : ℕ), (2 : WithTop ℚ))] (fun _ _ => 0) 1 =
        .error .valueError) :=
  c8_mating_pool_amended [[5, 6]] [((0 : ℕ), (2 : WithTop ℚ))] (fun _ _ => 0) 1
    rfl (by decide)

/-- C8 counterexample: with `tournament_size = 0 ≤ n = 1` the code raises
`ValueError` (Python's `min` of an empty tournament) instead of returning a
mating pool of `n` paths, so the claim as stated fails. -/
theorem c8_counterexample :
    (0 : ℕ) ≤ ([((0 : ℕ), (3 : WithTop ℚ))] : List (ℕ × WithTop ℚ)).length ∧
    CreateMatingPool [[0, 1]] [((0 : ℕ), (3 : WithTop ℚ))] (fun _ _ => 0) 0 =
      .error .valueError := by
  exact ⟨by decide, rfl⟩

/-- Random choices one `Mutate` call consumes: the operation choice
(`random.choice` between reverse and replace), the two `randint` raw draws,
and the replacement pick. -/
structure MutOracle : Type where
  typ : ℕ
  a : ℕ
  b : ℕ
  c : ℕ

/-- Embedding of `Mutate(Child, graph, all_start_end_points)`.  The reverse
branch is guarded by `len(Child) > 3` and both of its `randint` ranges are
then nonempty, so the oracle-driven draws are always in range; likewise the
replace branch is guarded by `len(Child) > 2` and a nonempty replacement
set. -/
def Mutate (Child : List ℕ) (graph : Graph) (all_start_end_points : List ℕ)
    (o : MutOracle) : List ℕ :=
  if o.typ % 2 = 0 then
    if 3 < Child.length then
      let s := 1 + o.a % (Child.length - 3)
      let e := s + o.b % (Child.length - 1 - s)
      Child.take s ++ ((Child.drop s).take (e + 1 - s)).reverse ++ Child.drop (e + 1)
    else Child
  else
    if 2 < Child.length then
      if hpos : ((graph.map Prod.fst).filter
          (fun a => decide (a ∉ Child ∧ a ∉ all_start_end_points))).dedup = [] then
        Child
      else
        Child.set (1 + o.a % (Child.length - 2))
          (((graph.map Prod.fst).filter
              (fun a => decide (a ∉ Child ∧ a ∉ all_start_end_points))).dedup.get
            ⟨o.c % ((graph.map Prod.fst).filter
              (fun a => decide (a ∉ Child ∧ a ∉ all_start_end_points))).dedup.length,
              Nat.mod_lt _ (List.length_pos.mpr hpos)⟩)
    else Child

lemma reverse_slice_frame (l : List ℕ) (s e : ℕ) (hs : 1 ≤ s)
    (hse : s ≤ e) (he : e + 1 < l.length) :
    (l.take s ++ ((l.drop s).take (e + 1 - s)).reverse ++ l.drop (e + 1)).length =
      l.length ∧
    (l.take s ++ ((l.drop s).take (e + 1 - s)).reverse ++ l.drop (e + 1)).head? =
      l.head? ∧
    (l.take s ++ ((l.drop s).take (e + 1 - s)).reverse ++ l.drop (e + 1)).getLast? =
      l.getLast? := by
  refine ⟨?_, ?_, ?_⟩
  · simp only [List.length_append, List.length_reverse, List.length_take,
      List.length_drop]
    omega
  · cases l with
    | nil => simp at he
    | cons a t =>
      obtain ⟨s', rfl⟩ : ∃ s', s = s' + 1 := ⟨s - 1, by omega⟩
      simp [List.take_cons]
  · have hd : l.drop (e + 1) ≠ [] := by
      rw [← List.length_pos, List.length_drop]
      omega
    have hz : (l.drop (e + 1)).getLast? = some ((l.drop (e + 1)).getLast hd) :=
      List.getLast?_eq_getLast _ hd
    have hl : l.getLast? = some ((l.drop (e + 1)).getLast hd) := by
      conv_lhs => rw [← List.take_append_drop (e + 1) l]
      rw [List.getLast?_append, hz]
      rfl
    rw [List.append_assoc, List.getLast?_append, List.getLast?_append, hz, hl]
    rfl

/-- C9: for every child path, graph, anchor list and every outcome of the
random choices, `Mutate` returns a path of the same length with the same
first and last entries: mutation never changes path length and never touches
the anchor positions. -/
theorem c9_mutate_frame (Child : List ℕ) (graph : Graph)
    (all_start_end_points : List ℕ) (o : MutOracle) :
    (Mutate Child graph all_start_end_points o).length = Child.length ∧
    (Mutate Child graph all_start_end_points o).head? = Child.head? ∧
    (Mutate Child graph all_start_end_points o).getLast? = Child.getLast? := by
  unfold Mutate
  by_cases htyp : o.typ % 2 = 0
  · rw [if_pos htyp]
    by_cases hlen : 3 < Child.length
    · rw [if_pos hlen]
      have hs : 1 ≤ 1 + o.a % (Child.length - 3) := by omega
      have hsub : o.a % (Child.length - 3) < Child.length - 3 :=
        Nat.mod_lt _ (by omega)
      have hse : 1 + o.a % (Child.length - 3) ≤
          1 + o.a % (Child.length - 3) +
            o.b % (Child.length - 1 - (1 + o.a % (Child.length - 3))) := by omega
      have hmod2 : o.b % (Child.length - 1 - (1 + o.a % (Child.length - 3))) <
          Child.length - 1 - (1 + o.a % (Child.length - 3)) :=
        Nat.mod_lt _ (by omega)
      exact reverse_slice_frame Child _ _ hs hse (by omega)
    · rw [if_neg hlen]
      exact ⟨rfl, rfl, rfl⟩
  · rw [if_neg htyp]
    by_cases hlen : 2 < Child.length
    · rw [if_pos hlen]
      by_cases hpos : ((graph.map Prod.fst).filter
          (fun a => decide (a ∉ Child ∧ a ∉ all_start_end_points))).dedup = []
      · rw [dif_pos hpos]
        exact ⟨rfl, rfl, rfl⟩
      · rw [dif_neg hpos]
        have h2 : 0 < Child.length - 2 := by omega
        have hidx : 1 + o.a % (Child.length - 2) < Child.length - 1 := by
          have := Nat.mod_lt o.a h2
          omega
        refine ⟨List.length_set _ _ _, ?_, ?_⟩
        · have hset : ∀ (u : List ℕ) (i v : ℕ), 1 ≤ i →
              (u.set i v).head? = u.head? := by
            intro u i v hi
            cases u with
            | nil => rfl
            | cons x xs =>
              obtain ⟨j, rfl⟩ : ∃ j, i = j + 1 := ⟨i - 1, by omega⟩
              rfl
          exact hset _ _ _ (by omega)
        · rw [List.getLast?_eq_get?, List.getLast?_eq_get?, List.length_set,
            List.get?_set_ne]
          omega
    · rw [if_neg hlen]
      exact ⟨rfl, rfl, rfl⟩

/-- The donor segment `Parent1[Start_Index : End_Index + 1]` of `Crossover`
(indices already clamped). -/
def p1Section (Parent1 : List ℕ) (s e : ℕ) : List ℕ :=
  (Parent1.drop s).take (e + 1 - s)

/-- The remainder sequence of `Crossover`: all of Parent2's entries, in
order, that do not occur in the donor segment. -/
def crossRemainder (Parent1 Parent2 : List ℕ) (s e : ℕ) : List ℕ :=
  Parent2.filter (fun x => decide (x ∉ p1Section Parent1 s e))

/-- The child as `Crossover` first constructs it:
`remainder[:s] ++ donor segment ++ remainder[s:]`. -/
def crossoverConstruct (Parent1 Parent2 : List ℕ) (s e : ℕ) : List ℕ :=
  (crossRemainder Parent1 Parent2 s e).take s ++ p1Section Parent1 s e ++
    (crossRemainder Parent1 Parent2 s e).drop s

/-- The missing-attractions list of `Crossover`:
`list((set(Parent1) - set(all_start_end_points)) - set(child))`. -/
def crossMissing (Parent1 child all_start_end_points : List ℕ) : List ℕ :=
  ((Parent1.filter (fun x => decide (x ∉ all_start_end_points))).dedup).filter
    (fun x => decide (x ∉ child))

/-- Repair scan of `Crossover`: walk the interior indices; at a position
holding an anchor or a currently-duplicated node, overwrite it with the last
missing node (`missing.pop()`), stopping when the missing list empties.  The
scan is only entered with a nonempty missing list, so the `getLast? = none`
arm is unreachable. -/
def repairGo (all_start_end_points : List ℕ) :
    List ℕ → List ℕ → List ℕ → List ℕ
  | [], child, _ => child
  | i :: rest, child, missing =>
    if (child.getD i 0) ∈ all_start_end_points ∨ 1 < child.count (child.getD i 0) then
      match missing.getLast? with
      | none => child
      | some m =>
        if missing.dropLast = [] then child.set i m
        else repairGo all_start_end_points rest (child.set i m) missing.dropLast
    else repairGo all_start_end_points rest child missing

/-- Embedding of `Crossover(Parent1, Parent2, Start_Index, End_Index,
all_start_end_points)`: clamp the indices into the interior, build the
child, then run the repair pass when any required non-anchor node of
Parent1 is missing from it. -/
def Crossover (Parent1 Parent2 : List ℕ) (Start_Index End_Index : ℕ)
    (all_start_end_points : List ℕ) : List ℕ :=
  if crossMissing Parent1
      (crossoverConstruct Parent1 Parent2 (max Start_Index 1)
        (min End_Index (Parent1.length - 2)))
      all_start_end_points = [] then
    crossoverConstruct Parent1 Parent2 (max Start_Index 1)
      (min End_Index (Parent1.length - 2))
  else
    repairGo all_start_end_points
      (List.range' 1
        ((crossoverConstruct Parent1 Parent2 (max Start_Index 1)
          (min End_Index (Parent1.length - 2))).length - 2))
      (crossoverConstruct Parent1 Parent2 (max Start_Index 1)
        (min End_Index (Parent1.length - 2)))
      (crossMissing Parent1
        (crossoverConstruct Parent1 Parent2 (max Start_Index 1)
          (min End_Index (Parent1.length - 2)))
        all_start_end_points)

lemma length_eq_of_nodup_mem {α : Type} [DecidableEq α] (l1 l2 : List α)
    (h1 : l1.Nodup) (h2 : l2.Nodup) (h : ∀ x, x ∈ l1 ↔ x ∈ l2) :
    l1.length = l2.length := by
  rw [← List.toFinset_card_of_nodup h1, ← List.toFinset_card_of_nodup h2]
  congr 1
  ext x
  simp only [List.mem_toFinset]
  exact h x

lemma filter_split_length {α : Type} (p : α → Bool) (l : List α) :
    (l.filter p).length + (l.filter (fun x => ! p x)).length = l.length := by
  induction l with
  | nil => rfl
  | cons x xs ih =>
    by_cases hx : p x
    · simp [List.filter_cons, hx, ← ih]
      omega
    · simp [List.filter_cons, hx, ← ih]
      omega

lemma crossover_structure (anchors M1 M2 : List ℕ) (a b : ℕ) (S E : ℕ)
    (hM : M1.length = M2.length)
    (ha : a ∈ anchors) (hb : b ∈ anchors)
    (h1 : ∀ x ∈ M1, x ∉ anchors) (h2 : ∀ x ∈ M2, x ∉ anchors)
    (hnd1 : M1.Nodup) (hnd2 : M2.Nodup)
    (hsame : ∀ x, x ∈ M1 ↔ x ∈ M2)
    (hS : 1 ≤ S) (hSE : S ≤ E) (hE : E ≤ M1.length) :
    ∃ mid : List ℕ,
      crossoverConstruct (a :: (M1 ++ [b])) (a :: (M2 ++ [b])) S E =
        a :: (mid ++ [b]) ∧
      Crossover (a :: (M1 ++ [b])) (a :: (M2 ++ [b])) S E anchors =
        a :: (mid ++ [b]) ∧
      (∀ x ∈ mid, x ∉ anchors) ∧
      (∀ x, x ∉ anchors → (a :: (mid ++ [b])).count x ≤ 1) ∧
      mid.length = M1.length := by
  obtain ⟨S', rfl⟩ : ∃ T, S = T + 1 := ⟨S - 1, by omega⟩
  have hp1 : p1Section (a :: (M1 ++ [b])) (S' + 1) E = (M1.drop S').take (E - S') := by
    unfold p1Section
    rw [List.drop_succ_cons, List.drop_append_of_le_length (by omega),
      List.take_append_of_le_length (by rw [List.length_drop]; omega)]
    rw [Nat.succ_sub_succ]
  set seg := (M1.drop S').take (E - S') with hsegv
  have hsegSub : seg.Sublist M1 := (List.take_sublist _ _).trans (List.drop_sublist _ _)
  have hsegsubset : ∀ x ∈ seg, x ∈ M1 := fun x hx => hsegSub.subset hx
  have hsegnd : seg.Nodup := List.Nodup.sublist hsegSub hnd1
  have hseglen : seg.length = E - S' := by
    rw [hsegv, List.length_take, List.length_drop]
    omega
  have hsegAnchor : ∀ x ∈ seg, x ∉ anchors := fun x hx => h1 x (hsegsubset x hx)
  have hsega : a ∉ seg := fun h => hsegAnchor a h ha
  have hsegb : b ∉ seg := fun h => hsegAnchor b h hb
  have hsega' : decide (a ∉ seg) = true := by simpa using hsega
  have hsegb' : decide (b ∉ seg) = true := by simpa using hsegb
  set M2' := M2.filter (fun x => decide (x ∉ seg)) with hM2v
  have hrem : crossRemainder (a :: (M1 ++ [b])) (a :: (M2 ++ [b])) (S' + 1) E =
      a :: (M2' ++ [b]) := by
    unfold crossRemainder
    rw [hp1]
    simp only [List.filter_cons, List.filter_append, List.filter_nil, hsega', hsegb',
      if_true]
  have hM2'nd : M2'.Nodup := List.Nodup.filter _ hnd2
  have hsegM2 : ∀ x ∈ seg, x ∈ M2 := fun x hx => (hsame x).mp (hsegsubset x hx)
  have hsplit : M2'.length + (M2.filter (fun x => ! decide (x ∉ seg))).length =
      M2.length := filter_split_length _ _
  have hother : (M2.filter (fun x => ! decide (x ∉ seg))).length = seg.length := by
    apply length_eq_of_nodup_mem
    · exact List.Nodup.filter _ hnd2
    · exact hsegnd
    · intro x
      simp only [List.mem_filter, Bool.not_eq_eq_eq_not, Bool.not_true,
        decide_eq_false_iff_not, not_not]
      constructor
      · rintro ⟨_, hx⟩; exact hx
      · intro hx; exact ⟨hsegM2 x hx, hx⟩
  have hM2'len : M2'.length = M2.length - seg.length := by omega
  have hseglen2 : seg.length ≤ M2.length := by omega
  have hS1le : S' ≤ M2'.length := by omega
  have hcons : crossoverConstruct (a :: (M1 ++ [b])) (a :: (M2 ++ [b])) (S' + 1) E =
      a :: ((M2'.take S' ++ seg ++ M2'.drop S') ++ [b]) := by
    unfold crossoverConstruct
    rw [hp1, hrem, List.take_succ_cons, List.drop_succ_cons,
      List.take_append_of_le_length hS1le, List.drop_append_of_le_length hS1le]
    simp [List.append_assoc]
  refine ⟨M2'.take S' ++ seg ++ M2'.drop S', hcons, ?_, ?_, ?_, ?_⟩
  · -- Crossover returns the constructed child: nothing is missing
    have hmiss : crossMissing (a :: (M1 ++ [b]))
        (crossoverConstruct (a :: (M1 ++ [b])) (a :: (M2 ++ [b])) (S' + 1) E)
        anchors = [] := by
      unfold crossMissing
      rw [List.filter_eq_nil]
      intro x hx
      simp only [List.mem_dedup, List.mem_filter, decide_eq_true_eq] at hx
      obtain ⟨hxP1, hxanch⟩ := hx
      simp only [decide_eq_true_eq, not_not]
      have hxM1 : x ∈ M1 := by
        rcases List.mem_cons.mp hxP1 with hxa | hxr
        · exact absurd ha (hxa ▸ hxanch)
        · rcases List.mem_append.mp hxr with hxm | hxb
          · exact hxm
          · rw [List.mem_singleton] at hxb
            exact absurd hb (hxb ▸ hxanch)
      rw [hcons]
      refine List.mem_cons_of_mem _ (List.mem_append.mpr (Or.inl ?_))
      by_cases hxs : x ∈ seg
      · exact List.mem_append.mpr (Or.inl (List.mem_append.mpr (Or.inr hxs)))
      · have hxM2' : x ∈ M2' := by
          rw [hM2v, List.mem_filter]
          exact ⟨(hsame x).mp hxM1, by simpa using hxs⟩
        rw [← List.take_append_drop S' M2'] at hxM2'
        rcases List.mem_append.mp hxM2' with hxt | hxd
        · exact List.mem_append.mpr (Or.inl (List.mem_append.mpr (Or.inl hxt)))
        · exact List.mem_append.mpr (Or.inr hxd)
    have hclamp1 : max (S' + 1) 1 = S' + 1 := max_eq_left (by omega)
    have hclamp2 : min E ((a :: (M1 ++ [b])).length - 2) = E := by
      simp only [List.length_cons, List.length_append, List.length_singleton]
      exact min_eq_left (by omega)
    unfold Crossover
    rw [hclamp1, hclamp2, if_pos hmiss]
    exact hcons
  · -- no anchors inside the interior
    intro x hx
    rcases List.mem_append.mp hx with hxts | hxd
    · rcases List.mem_append.mp hxts with hxt | hxs
      · exact h2 x (List.mem_of_mem_filter (hM2v ▸ List.mem_of_mem_take hxt))
      · exact hsegAnchor x hxs
    · exact h2 x (List.mem_of_mem_filter (hM2v ▸ List.mem_of_mem_drop hxd))
  · -- each non-anchor node occurs at most once
    intro x hxanch
    have hxa : x ≠ a := fun h => hxanch (h ▸ ha)
    have hxb : x ≠ b := fun h => hxanch (h ▸ hb)
    rw [List.count_cons_of_ne hxa, List.count_append, List.count_append,
      List.count_append]
    have hsingle : List.count x [b] = 0 :=
      List.count_eq_zero.mpr (by simp [hxb])
    have htd : (M2'.take S').count x + (M2'.drop S').count x = M2'.count x := by
      conv_rhs => rw [← List.take_append_drop S' M2']
      rw [List.count_append]
    by_cases hxs : x ∈ seg
    · have h0 : M2'.count x = 0 := by
        apply List.count_eq_zero.mpr
        intro hmem
        rw [hM2v, List.mem_filter] at hmem
        exact (by simpa using hmem.2 : x ∉ seg) hxs
      have hs1 : seg.count x ≤ 1 := List.nodup_iff_count_le_one.mp hsegnd x
      omega
    · have h0 : seg.count x = 0 := List.count_eq_zero.mpr hxs
      have hle : M2'.count x ≤ M2.count x := by
        rw [hM2v]
        exact (List.filter_sublist _).count_le x
      have hm2c : M2.count x ≤ 1 := List.nodup_iff_count_le_one.mp hnd2 x
      omega
  · -- interior length
    rw [List.length_append, List.length_append, List.length_take,
      List.length_drop]
    omega

/-- C3: for valid same-universe parents `a :: (M1 ++ [b])` and
`a :: (M2 ++ [b])` (equal length, duplicate-free anchor-free interiors over
the same node set, anchors `a`, `b` at the two ends) and any crossover pair
clamped into the interior (`1 ≤ S ≤ E ≤ length - 2`), the `Crossover` child
keeps the anchors exactly at the first and last positions, holds no anchor
in its interior, contains every non-anchor node at most once, and neither
the construction step nor the repair pass moves the first or last entry. -/
theorem c3_crossover_invariants (anchors M1 M2 : List ℕ) (a b : ℕ) (S E : ℕ)
    (hM : M1.length = M2.length)
    (ha : a ∈ anchors) (hb : b ∈ anchors)
    (h1 : ∀ x ∈ M1, x ∉ anchors) (h2 : ∀ x ∈ M2, x ∉ anchors)
    (hnd1 : M1.Nodup) (hnd2 : M2.Nodup)
    (hsame : ∀ x, x ∈ M1 ↔ x ∈ M2)
    (hS : 1 ≤ S) (hSE : S ≤ E) (hE : E ≤ M1.length) :
    ∃ mid : List ℕ,
      Crossover (a :: (M1 ++ [b])) (a :: (M2 ++ [b])) S E anchors =
        a :: (mid ++ [b]) ∧
      (∀ x, x ∉ anchors → (a :: (mid ++ [b])).count x ≤ 1) ∧
      (∀ x ∈ mid, x ∉ anchors) ∧
      (crossoverConstruct (a :: (M1 ++ [b])) (a :: (M2 ++ [b]))
        (max S 1) (min E ((a :: (M1 ++ [b])).length - 2))).head? = some a ∧
      (crossoverConstruct (a :: (M1 ++ [b])) (a :: (M2 ++ [b]))
        (max S 1) (min E ((a :: (M1 ++ [b])).length - 2))).getLast? = some b ∧
      (Crossover (a :: (M1 ++ [b])) (a :: (M2 ++ [b])) S E anchors).head? =
        some a ∧
      (Crossover (a :: (M1 ++ [b])) (a :: (M2 ++ [b])) S E anchors).getLast? =
        some b := by
  obtain ⟨mid, hcons, hcross, hanch, hcount, _⟩ :=
    crossover_structure anchors M1 M2 a b S E hM ha hb h1 h2 hnd1 hnd2 hsame
      hS hSE hE
  have hclamp1 : max S 1 = S := max_eq_left hS
  have hclamp2 : min E ((a :: (M1 ++ [b])).length - 2) = E := by
    simp only [List.length_cons, List.length_append, List.length_singleton]
    exact min_eq_left (by omega)
  have hlast : (a :: (mid ++ [b])).getLast? = some b := by
    rw [← List.cons_append]
    exact List.getLast?_concat _
  refine ⟨mid, hcross, hcount, hanch, ?_, ?_, ?_, ?_⟩
  · rw [hclamp1, hclamp2, hcons]; rfl
  · rw [hclamp1, hclamp2, hcons]; exact hlast
  · rw [hcross]; rfl
  · rw [hcross]; exact hlast

/-- C3 witness: parents `[0, 1, 2, 3, 9]` and `[0, 2, 1, 3, 9]` over
anchors `{0, 9}` with crossover window `[1, 2]`. -/
theorem c3_crossover_invariants_witness :
    ∃ mid : List ℕ,
      Crossover (0 :: ([1, 2, 3] ++ [9])) (0 :: ([2, 1, 3] ++ [9])) 1 2 [0, 9] =
        0 :: (mid ++ [9]) ∧
      (∀ x, x ∉ ([0, 9] : List ℕ) → (0 :: (mid ++ [9])).count x ≤ 1) ∧
      (∀ x ∈ mid, x ∉ ([0, 9] : List ℕ)) ∧
      (crossoverConstruct (0 :: ([1, 2, 3] ++ [9])) (0 :: ([2, 1, 3] ++ [9]))
        (max 1 1) (min 2 ((0 :: ([1, 2, 3] ++ [9])).length - 2))).head? = some 0 ∧
      (crossoverConstruct (0 :: ([1, 2, 3] ++ [9])) (0 :: ([2, 1, 3] ++ [9]))
        (max 1 1) (min 2 ((0 :: ([1, 2, 3] ++ [9])).length - 2))).getLast? =
        some 9 ∧
      (Crossover (0 :: ([1, 2, 3] ++ [9])) (0 :: ([2, 1, 3] ++ [9])) 1 2
        [0, 9]).head? = some 0 ∧
      (Crossover (0 :: ([1, 2, 3] ++ [9])) (0 :: ([2, 1, 3] ++ [9])) 1 2
        [0, 9]).getLast? = some 9 :=
  c3_crossover_invariants [0, 9] [1, 2, 3] [2, 1, 3] 0 9 1 2 rfl (by decide)
    (by decide) (by decide) (by decide) (by decide) (by decide)
    (by intro x; simp; tauto) (by decide) (by decide) (by decide)

/-- C10: under the same validity hypotheses, the `Crossover` child has
exactly the parents' length — the fixed-length invariant the specification
never states for the Recombiner. -/
theorem c10_crossover_length (anchors M1 M2 : List ℕ) (a b : ℕ) (S E : ℕ)
    (hM : M1.length = M2.length)
    (ha : a ∈ anchors) (hb : b ∈ anchors)
    (h1 : ∀ x ∈ M1, x ∉ anchors) (h2 : ∀ x ∈ M2, x ∉ anchors)
    (hnd1 : M1.Nodup) (hnd2 : M2.Nodup)
    (hsame : ∀ x, x ∈ M1 ↔ x ∈ M2)
    (hS : 1 ≤ S) (hSE : S ≤ E) (hE : E ≤ M1.length) :
    (Crossover (a :: (M1 ++ [b])) (a :: (M2 ++ [b])) S E anchors).length =
      (a :: (M1 ++ [b])).length := by
  obtain ⟨mid, _, hcross, _, _, hmidlen⟩ :=
    crossover_structure anchors M1 M2 a b S E hM ha hb h1 h2 hnd1 hnd2 hsame
      hS hSE hE
  rw [hcross]
  simp [hmidlen]

/-- C10 witness: the same concrete parents as the crossover invariant
check; the child length equals the parent length 5. -/
theorem c10_crossover_length_witness :
    (Crossover (0 :: ([1, 2, 3] ++ [9])) (0 :: ([2, 1, 3] ++ [9])) 2 3
        [0, 9]).length = (0 :: (([1, 2, 3] : List ℕ) ++ [9])).length :=
  c10_crossover_length [0, 9] [1, 2, 3] [2, 1, 3] 0 9 2 3 rfl (by decide)
    (by decide) (by decide) (by decide) (by decide) (by decide)
    (by intro x; simp; tauto) (by decide) (by decide) (by decide)

/-- State the Evolution Driver threads through generations. -/
structure GAState : Type where
  population : List (List ℕ)
  bestPath : List ℕ
  bestFitness : WithTop ℚ
deriving DecidableEq

/-- Random choices consumed while breeding one child: the two parent picks,
the two crossover-index draws, the `random.random()` value compared against
the mutation rate, and the mutation oracle. -/
structure ChildOracle : Type where
  p1 : ℕ
  p2 : ℕ
  s : ℕ
  e : ℕ
  r : ℚ
  mo : MutOracle

/-- All random choices one run consumes, indexed by generation/slot. -/
structure GAOracle : Type where
  initSample : ℕ → ℕ → ℕ
  mate : ℕ → ℕ → ℕ → ℕ
  child : ℕ → ℕ → ChildOracle

/-- Ordering used to sort the rank list: ascending fitness
(`RankList.sort(key=lambda item: item[1])`). -/
def rankLE (x y : ℕ × WithTop ℚ) : Prop := x.2 ≤ y.2

instance : DecidableRel rankLE :=
  fun x y => inferInstanceAs (Decidable (x.2 ≤ y.2))

instance : IsTotal (ℕ × WithTop ℚ) rankLE :=
  ⟨fun x y => le_total x.2 y.2⟩

instance : IsTrans (ℕ × WithTop ℚ) rankLE :=
  ⟨fun _ _ _ h1 h2 => le_trans h1 h2⟩

/-- Breeding of one child inside the generation loop: pick two parents from
the mating pool (`randint(0, len(pool) - 1)`), pick a crossover window
strictly inside the anchors (`randint(1, len(Parent1) - 2)` twice — this
raises when the parent has fewer than three entries), recombine, and mutate
with probability `rate`. -/
def breedChild (graph : Graph) (all_start_end_points : List ℕ) (rate : ℚ)
    (pool : List (List ℕ)) (o : ChildOracle) : Except PyError (List ℕ) :=
  match randint 0 (pool.length - 1) o.p1 with
  | .error e => .error e
  | .ok i1 =>
    match pool.get? i1 with
    | none => .error .indexError
    | some P1 =>
      match randint 0 (pool.length - 1) o.p2 with
      | .error e => .error e
      | .ok i2 =>
        match pool.get? i2 with
        | none => .error .indexError
        | some P2 =>
          match randint 1 (P1.length - 2) o.s with
          | .error e => .error e
          | .ok S =>
            match randint S (P1.length - 2) o.e with
            | .error e => .error e
            | .ok E =>
              .ok (if o.r < rate then
                Mutate (Crossover P1 P2 S E all_start_end_points) graph
                  all_start_end_points o.mo
              else Crossover P1 P2 S E all_start_end_points)

/-- One generation of `run_genetic_algorithm`: rank the population, record
the best-so-far on strict improvement, build the mating pool, breed
`size // 2` children, and append the first `size // 2` members of the
previous population. -/
def gaStep (graph : Graph) (all_start_end_points : List ℕ) (rate : ℚ)
    (omate : ℕ → ℕ → ℕ) (ochild : ℕ → ChildOracle) (st : GAState) :
    Except PyError GAState :=
  match st.population.enum.mapM
      (fun ia => (calculate_path_distance graph ia.2).map (fun d => (ia.1, d))) with
  | .error e => .error e
  | .ok RankList =>
    match (List.insertionSort rankLE RankList).head? with
    | none => .error .indexError
    | some top =>
      match (if top.2 < st.bestFitness then
          match st.population.get? top.1 with
          | some p => Except.ok (p, top.2)
          | none => Except.error PyError.indexError
        else .ok (st.bestPath, st.bestFitness)) with
      | .error e => .error e
      | .ok best =>
        match CreateMatingPool st.population (List.insertionSort rankLE RankList)
            omate with
        | .error e => .error e
        | .ok matingPool =>
          match (List.range (st.population.length / 2)).mapM
              (fun i => breedChild graph all_start_end_points rate matingPool
                (ochild i)) with
          | .error e => .error e
          | .ok kids =>
            .ok ⟨kids ++ st.population.take (st.population.length / 2),
              best.1, best.2⟩

/-- Mutation rate of generation `g`:
`max(initial_mutation_rate - generation * decay_rate, minimum_mutation_rate)`. -/
def gaRate (initial_mutation_rate minimum_mutation_rate decay_rate : ℚ)
    (g : ℕ) : ℚ :=
  max (initial_mutation_rate - g * decay_rate) minimum_mutation_rate

/-- One generation at index `g`, drawing that generation's oracles. -/
def gaStepAt (graph : Graph) (all_start_end_points : List ℕ)
    (initial_mutation_rate minimum_mutation_rate decay_rate : ℚ) (o : GAOracle)
    (st : GAState) (g : ℕ) : Except PyError GAState :=
  gaStep graph all_start_end_points
    (gaRate initial_mutation_rate minimum_mutation_rate decay_rate g)
    (o.mate g) (o.child g) st

/-- Embedding of `run_genetic_algorithm`: `generations = 0` raises
`ZeroDivisionError` computing the decay rate; a negative generation count
runs zero generations (Python's `range`); afterwards the best-so-far path
and fitness are returned. -/
def run_genetic_algorithm (graph : Graph) (initial_pop_size : ℕ)
    (start_attraction end_attraction : ℕ) (final_path_size : ℤ)
    (generations : ℤ) (initial_mutation_rate minimum_mutation_rate : ℚ)
    (all_start_end_points : List ℕ) (o : GAOracle) :
    Except PyError (List ℕ × WithTop ℚ) :=
  if generations = 0 then .error .zeroDivision
  else
    match CreateInitialPopulation initial_pop_size graph start_attraction
        end_attraction final_path_size all_start_end_points o.initSample with
    | .error e => .error e
    | .ok pop0 =>
      match (List.range generations.toNat).foldlM
          (gaStepAt graph all_start_end_points initial_mutation_rate
            minimum_mutation_rate
            ((initial_mutation_rate - minimum_mutation_rate) / (generations : ℚ))
            o)
          ⟨pop0, [], ⊤⟩ with
      | .error e => .error e
      | .ok final => .ok (final.bestPath, final.bestFitness)

/-- Minimum fitness over a population snapshot (the value the ranking's
first entry carries). -/
def genMinE (graph : Graph) (pop : List (List ℕ)) : Except PyError (WithTop ℚ) :=
  match pop.mapM (calculate_path_distance graph) with
  | .error e => .error e
  | .ok ds => .ok (ds.foldl min ⊤)

/-- The sequence of states the generation loop passes through: the state
before each generation plus the final state. -/
def gaTraceGo (graph : Graph) (all_start_end_points : List ℕ)
    (initial_mutation_rate minimum_mutation_rate decay_rate : ℚ) (o : GAOracle) :
    List ℕ → GAState → Except PyError (List GAState)
  | [], st => .ok [st]
  | g :: gs, st =>
    match gaStepAt graph all_start_end_points initial_mutation_rate
        minimum_mutation_rate decay_rate o st g with
    | .error e => .error e
    | .ok st' =>
      match gaTraceGo graph all_start_end_points initial_mutation_rate
          minimum_mutation_rate decay_rate o gs st' with
      | .error e => .error e
      | .ok rest => .ok (st :: rest)

lemma foldl_min_le_init (l : List (WithTop ℚ)) :
    ∀ init : WithTop ℚ, l.foldl min init ≤ init := by
  induction l with
  | nil => intro init; exact le_refl _
  | cons x xs ih =>
    intro init
    calc (x :: xs).foldl min init = xs.foldl min (min init x) := rfl
    _ ≤ min init x := ih _
    _ ≤ init := min_le_left _ _

lemma foldl_min_le_mem (l : List (WithTop ℚ)) :
    ∀ (init x : WithTop ℚ), x ∈ l → l.foldl min init ≤ x := by
  induction l with
  | nil => intro _ x hx; simp at hx
  | cons y ys ih =>
    intro init x hx
    rcases List.mem_cons.mp hx with hx | hx
    · subst hx
      calc (x :: ys).foldl min init = ys.foldl min (min init x) := rfl
      _ ≤ min init x := foldl_min_le_init _ _
      _ ≤ x := min_le_right _ _
    · exact ih (min init y) x hx

lemma le_foldl_min (l : List (WithTop ℚ)) :
    ∀ (init c : WithTop ℚ), c ≤ init → (∀ x ∈ l, c ≤ x) →
      c ≤ l.foldl min init := by
  induction l with
  | nil => intro init c hc _; exact hc
  | cons y ys ih =>
    intro init c hc h
    exact ih _ _ (le_min hc (h y (List.mem_cons_self _ _)))
      (fun x hx => h x (List.mem_cons_of_mem _ hx))

lemma mapM_ok_length {α β : Type} (f : α → Except PyError β) :
    ∀ (l : List α) (l' : List β), l.mapM f = .ok l' → l'.length = l.length := by
  intro l
  induction l with
  | nil =>
    intro l' h
    simp only [List.mapM_nil] at h
    cases h
    rfl
  | cons a rest ih =>
    intro l' h
    rw [List.mapM_cons] at h
    cases hfa : f a with
    | error e => rw [hfa] at h; exact absurd h (by simp [Bind.bind, Except.bind])
    | ok b =>
      rw [hfa] at h
      cases hrest : rest.mapM f with
      | error e =>
        rw [hrest] at h
        exact absurd h (by simp [Bind.bind, Except.bind])
      | ok bs =>
        rw [hrest] at h
        have : b :: bs = l' := by
          simpa [Bind.bind, Except.bind, pure, Except.pure] using h
        subst this
        simp [ih bs hrest]

lemma mapM_ok_get_rel {α β : Type} (f : α → Except PyError β) :
    ∀ (l : List α) (l' : List β), l.mapM f = .ok l' →
      ∀ (i : ℕ) (a : α) (b : β), l.get? i = some a → l'.get? i = some b →
        f a = .ok b := by
  intro l
  induction l with
  | nil => intro l' _ i a b ha _; simp at ha
  | cons x rest ih =>
    intro l' h i a b ha hb
    rw [List.mapM_cons] at h
    cases hfa : f x with
    | error e => rw [hfa] at h; exact absurd h (by simp [Bind.bind, Except.bind])
    | ok c =>
      rw [hfa] at h
      cases hrest : rest.mapM f with
      | error e =>
        rw [hrest] at h
        exact absurd h (by simp [Bind.bind, Except.bind])
      | ok cs =>
        rw [hrest] at h
        have hl' : c :: cs = l' := by
          simpa [Bind.bind, Except.bind, pure, Except.pure] using h
        subst hl'
        cases i with
        | zero =>
          simp only [List.get?_cons_zero, Option.some.injEq] at ha hb
          subst ha; subst hb
          exact hfa
        | succ i =>
          simp only [List.get?_cons_succ] at ha hb
          exact ih cs hrest i a b ha hb

lemma enumFrom_mapM_dist (graph : Graph) :
    ∀ (pop : List (List ℕ)) (n : ℕ) (rl : List (ℕ × WithTop ℚ)),
      (pop.enumFrom n).mapM
        (fun ia => (calculate_path_distance graph ia.2).map (fun d => (ia.1, d))) =
        .ok rl →
      ∃ ds : List (WithTop ℚ),
        pop.mapM (calculate_path_distance graph) = .ok ds ∧ rl = ds.enumFrom n := by
  intro pop
  induction pop with
  | nil =>
    intro n rl h
    simp only [List.enumFrom_nil, List.mapM_nil] at h
    cases h
    exact ⟨[], rfl, rfl⟩
  | cons p rest ih =>
    intro n rl h
    simp only [List.enumFrom_cons, List.mapM_cons] at h
    cases hd : calculate_path_distance graph p with
    | error e =>
      rw [hd] at h
      exact absurd h (by simp [Bind.bind, Except.bind, Except.map])
    | ok d =>
      rw [hd] at h
      cases hrest : (rest.enumFrom (n + 1)).mapM
          (fun ia => (calculate_path_distance graph ia.2).map (fun d => (ia.1, d))) with
      | error e =>
        rw [hrest] at h
        exact absurd h (by simp [Bind.bind, Except.bind, Except.map])
      | ok rl' =>
        rw [hrest] at h
        obtain ⟨ds, hds, hrl'⟩ := ih (n + 1) rl' hrest
        have hrl : (n, d) :: rl' = rl := by
          simpa [Bind.bind, Except.bind, pure, Except.pure, Except.map] using h
        refine ⟨d :: ds, ?_, ?_⟩
        · rw [List.mapM_cons, hd, hds]
          rfl
        · rw [← hrl, hrl', List.enumFrom_cons]

lemma mem_enumFrom_of_mem {α : Type} :
    ∀ (l : List α) (n : ℕ) (x : α), x ∈ l → ∃ i, (i, x) ∈ l.enumFrom n := by
  intro l
  induction l with
  | nil => intro n x hx; simp at hx
  | cons y ys ih =>
    intro n x hx
    rcases List.mem_cons.mp hx with hx | hx
    · subst hx
      exact ⟨n, by simp [List.enumFrom_cons]⟩
    · obtain ⟨i, hi⟩ := ih (n + 1) x hx
      exact ⟨i, by simp [List.enumFrom_cons, hi]⟩

lemma get?_of_mem_enumFrom {α : Type} :
    ∀ (l : List α) (n i : ℕ) (x : α), (i, x) ∈ l.enumFrom n →
      n ≤ i ∧ l.get? (i - n) = some x := by
  intro l
  induction l with
  | nil => intro n i x hx; simp at hx
  | cons y ys ih =>
    intro n i x hx
    simp only [List.enumFrom_cons, List.mem_cons, Prod.mk.injEq] at hx
    rcases hx with ⟨rfl, rfl⟩ | hx
    · simp
    · obtain ⟨hn, hget⟩ := ih (n + 1) i x hx
      refine ⟨by omega, ?_⟩
      have hin : i - n = (i - (n + 1)) + 1 := by omega
      rw [hin, List.get?_cons_succ]
      exact hget

lemma gaStep_ok (graph : Graph) (anchors : List ℕ) (rate : ℚ)
    (omate : ℕ → ℕ → ℕ) (ochild : ℕ → ChildOracle) (st st' : GAState)
    (h : gaStep graph anchors rate omate ochild st = .ok st') :
    ∃ m : WithTop ℚ,
      genMinE graph st.population = .ok m ∧
      st'.bestFitness = min st.bestFitness m ∧
      ((m < st.bestFitness ∧ st'.bestFitness = m ∧
          calculate_path_distance graph st'.bestPath = .ok m) ∨
        (¬ m < st.bestFitness ∧ st'.bestPath = st.bestPath ∧
          st'.bestFitness = st.bestFitness)) ∧
      st'.population.length = 2 * (st.population.length / 2) ∧
      ∃ kids : List (List ℕ),
        kids.length = st.population.length / 2 ∧
        st'.population = kids ++ st.population.take (st.population.length / 2) := by
  unfold gaStep at h
  repeat' split at h
  any_goals exact Except.noConfusion h
  rename_i u1 RankList heq1 u2 top heq2 u3 best heq3 u4 matingPool heq4 u5 kids heq5
  injection h with h
  subst h
  have henum : (st.population.enumFrom 0).mapM
      (fun ia => (calculate_path_distance graph ia.2).map (fun d => (ia.1, d))) =
      .ok RankList := heq1
  obtain ⟨ds, hds, hrlds⟩ := enumFrom_mapM_dist graph st.population 0 RankList henum
  subst hrlds
  have hgen : genMinE graph st.population = .ok (ds.foldl min ⊤) := by
    unfold genMinE
    rw [hds]
  have hperm := List.perm_insertionSort rankLE (ds.enumFrom 0)
  have hsorted := List.sorted_insertionSort rankLE (ds.enumFrom 0)
  have htopmem : top ∈ List.insertionSort rankLE (ds.enumFrom 0) :=
    List.mem_of_mem_head? heq2
  have hle_all : ∀ y ∈ ds.enumFrom 0, rankLE top y := by
    intro y hy
    have hy' : y ∈ List.insertionSort rankLE (ds.enumFrom 0) := hperm.mem_iff.mpr hy
    cases hs : List.insertionSort rankLE (ds.enumFrom 0) with
    | nil => rw [hs] at hy'; simp at hy'
    | cons z t =>
      have hz : z = top := by
        rw [hs] at heq2
        simpa using heq2
      subst hz
      rw [hs] at hy' hsorted
      rcases List.mem_cons.mp hy' with hyz | hyt
      · subst hyz
        exact le_refl y.2
      · exact (List.sorted_cons.mp hsorted).1 y hyt
  have htop_in_rl : top ∈ ds.enumFrom 0 := hperm.subset htopmem
  have htopget : ds.get? top.1 = some top.2 := by
    have hmem : (top.1, top.2) ∈ ds.enumFrom 0 := by rwa [Prod.mk.eta]
    have := (get?_of_mem_enumFrom ds 0 top.1 top.2 hmem).2
    simpa using this
  have htop2mem : top.2 ∈ ds := List.get?_mem htopget
  have hlow : ∀ d ∈ ds, top.2 ≤ d := by
    intro d hd
    obtain ⟨i, hi⟩ := mem_enumFrom_of_mem ds 0 d hd
    exact hle_all (i, d) hi
  have htopm : top.2 = ds.foldl min ⊤ :=
    le_antisymm (le_foldl_min ds ⊤ top.2 le_top hlow)
      (foldl_min_le_mem ds ⊤ top.2 htop2mem)
  have hkidslen : kids.length = st.population.length / 2 := by
    have := mapM_ok_length _ _ _ heq5
    simpa using this
  have hpoplen :
      (kids ++ st.population.take (st.population.length / 2)).length =
        2 * (st.population.length / 2) := by
    rw [List.length_append, List.length_take, hkidslen]
    have := Nat.div_le_self st.population.length 2
    omega
  refine ⟨ds.foldl min ⊤, hgen, ?_, ?_, hpoplen, kids, hkidslen, rfl⟩
  · by_cases hlt : top.2 < st.bestFitness
    · rw [if_pos hlt] at heq3
      have hlen_ds : ds.length = st.population.length := mapM_ok_length _ _ _ hds
      have hi_lt : top.1 < st.population.length := by
        obtain ⟨hlt', _⟩ := List.get?_eq_some.mp htopget
        omega
      rw [List.get?_eq_get hi_lt] at heq3
      injection heq3 with heq3
      subst heq3
      rw [← htopm]
      exact (min_eq_right (le_of_lt hlt)).symm
    · rw [if_neg hlt] at heq3
      injection heq3 with heq3
      subst heq3
      rw [← htopm]
      exact (min_eq_left (le_of_not_lt hlt)).symm
  · by_cases hlt : top.2 < st.bestFitness
    · rw [if_pos hlt] at heq3
      have hlen_ds : ds.length = st.population.length := mapM_ok_length _ _ _ hds
      have hi_lt : top.1 < st.population.length := by
        obtain ⟨hlt', _⟩ := List.get?_eq_some.mp htopget
        omega
      rw [List.get?_eq_get hi_lt] at heq3
      injection heq3 with heq3
      subst heq3
      left
      refine ⟨htopm ▸ hlt, htopm, ?_⟩
      have hd := mapM_ok_get_rel _ _ _ hds top.1 _ _ (List.get?_eq_get hi_lt) htopget
      rw [← htopm]
      exact hd
    · rw [if_neg hlt] at heq3
      injection heq3 with heq3
      subst heq3
      right
      exact ⟨htopm ▸ hlt, rfl, rfl⟩

lemma ga_fold_best (graph : Graph) (anchors : List ℕ)
    (initR minR decay : ℚ) (o : GAOracle) :
    ∀ (gs : List ℕ) (st stfin : GAState),
      gs.foldlM (gaStepAt graph anchors initR minR decay o) st = .ok stfin →
      ∃ (sts : List GAState) (mins : List (WithTop ℚ)),
        gaTraceGo graph anchors initR minR decay o gs st = .ok sts ∧
        sts.head? = some st ∧
        sts.getLast? = some stfin ∧
        sts.length = gs.length + 1 ∧
        sts.dropLast.mapM (fun s => genMinE graph s.population) = .ok mins ∧
        stfin.bestFitness = mins.foldl min st.bestFitness ∧
        List.Chain' (fun x y => y.bestFitness ≤ x.bestFitness ∧
          (y.bestFitness < x.bestFitness ∨
            (y.bestFitness = x.bestFitness ∧ y.bestPath = x.bestPath))) sts ∧
        ((stfin.bestFitness < st.bestFitness ∧
            calculate_path_distance graph stfin.bestPath =
              .ok stfin.bestFitness) ∨
          (stfin.bestFitness = st.bestFitness ∧ stfin.bestPath = st.bestPath)) := by
  intro gs
  induction gs with
  | nil =>
    intro st stfin h
    have hst : st = stfin := by
      simp only [List.foldlM_nil] at h
      exact Except.ok.inj h
    subst hst
    exact ⟨[st], [], rfl, rfl, rfl, rfl, rfl, rfl, List.chain'_singleton _,
      Or.inr ⟨rfl, rfl⟩⟩
  | cons g gs ih =>
    intro st stfin h
    rw [List.foldlM_cons] at h
    cases hstep : gaStepAt graph anchors initR minR decay o st g with
    | error e =>
      rw [hstep] at h
      exact absurd h (by simp [Bind.bind, Except.bind])
    | ok st1 =>
      rw [hstep] at h
      have h' : gs.foldlM (gaStepAt graph anchors initR minR decay o) st1 =
          .ok stfin := h
      obtain ⟨sts1, mins1, htr1, hhd1, hlast1, hlen1, hmins1, hfold1, hchain1,
        hP1⟩ := ih st1 stfin h'
      obtain ⟨m, hgen, hminrec, hdisj, _, _⟩ :=
        gaStep_ok graph anchors (gaRate initR minR decay g) (o.mate g)
          (o.child g) st st1 hstep
      cases sts1 with
      | nil => simp at hhd1
      | cons s0 rest1 =>
        have hs0 : s0 = st1 := by simpa using hhd1
        subst hs0
        refine ⟨st :: s0 :: rest1, m :: mins1, ?_, rfl, ?_, ?_, ?_, ?_, ?_, ?_⟩
        · simp only [gaTraceGo, hstep, htr1]
        · rw [List.getLast?_cons_cons]
          exact hlast1
        · simp only [List.length_cons] at hlen1 ⊢
          omega
        · rw [List.dropLast_cons_of_ne_nil (by simp), List.mapM_cons, hgen, hmins1]
          rfl
        · rw [List.foldl_cons, ← hminrec]
          exact hfold1
        · rw [List.chain'_cons]
          refine ⟨⟨?_, ?_⟩, hchain1⟩
          · rw [hminrec]
            exact min_le_left _ _
          · rcases hdisj with ⟨hm, hbf, _⟩ | ⟨_, hp, hf⟩
            · left
              rw [hbf]
              exact hm
            · right
              exact ⟨hf, hp⟩
        · rcases hP1 with ⟨hlt1, hat⟩ | ⟨heqf, heqp⟩
          · left
            refine ⟨lt_of_lt_of_le hlt1 ?_, hat⟩
            rw [hminrec]
            exact min_le_left _ _
          · rcases hdisj with ⟨hm, hbf, hat1⟩ | ⟨_, hp, hf⟩
            · left
              constructor
              · rw [heqf, hbf]
                exact hm
              · rw [heqp, heqf, hbf]
                exact hat1
            · right
              exact ⟨heqf.trans hf, heqp.trans hp⟩

/-- C1 (amended): whenever `run_genetic_algorithm` completes without
raising, the returned fitness is the minimum fitness over all population
members across all evaluated generations (fold of per-generation minima
from the initial `+∞` sentinel); the returned path attains that fitness
when it is finite and is the initial empty placeholder when no finite
fitness was ever observed; along the whole run the best-so-far fitness is
non-increasing and the best record changes only when a strictly lower
fitness appears. -/
theorem c1_run_returns_best_so_far (graph : Graph) (initial_pop_size : ℕ)
    (start_attraction end_attraction : ℕ) (final_path_size : ℤ)
    (generations : ℤ) (initial_mutation_rate minimum_mutation_rate : ℚ)
    (all_start_end_points : List ℕ) (o : GAOracle) (p : List ℕ)
    (f : WithTop ℚ)
    (hok : run_genetic_algorithm graph initial_pop_size start_attraction
      end_attraction final_path_size generations initial_mutation_rate
      minimum_mutation_rate all_start_end_points o = .ok (p, f)) :
    ∃ (pop0 : List (List ℕ)) (sts : List GAState) (mins : List (WithTop ℚ)),
      CreateInitialPopulation initial_pop_size graph start_attraction
        end_attraction final_path_size all_start_end_points o.initSample =
        .ok pop0 ∧
      gaTraceGo graph all_start_end_points initial_mutation_rate
        minimum_mutation_rate
        ((initial_mutation_rate - minimum_mutation_rate) / (generations : ℚ)) o
        (List.range generations.toNat) ⟨pop0, [], ⊤⟩ = .ok sts ∧
      sts.head? = some ⟨pop0, [], ⊤⟩ ∧
      sts.length = generations.toNat + 1 ∧
      sts.dropLast.mapM (fun s => genMinE graph s.population) = .ok mins ∧
      f = mins.foldl min ⊤ ∧
      (f < ⊤ → calculate_path_distance graph p = .ok f) ∧
      (f = ⊤ → p = []) ∧
      List.Chain' (fun x y => y.bestFitness ≤ x.bestFitness ∧
        (y.bestFitness < x.bestFitness ∨
          (y.bestFitness = x.bestFitness ∧ y.bestPath = x.bestPath))) sts ∧
      (∃ fin : GAState, sts.getLast? = some fin ∧ fin.bestPath = p ∧
        fin.bestFitness = f) := by
  unfold run_genetic_algorithm at hok
  by_cases hgen0 : generations = 0
  · rw [if_pos hgen0] at hok
    exact Except.noConfusion hok
  · rw [if_neg hgen0] at hok
    split at hok
    · exact Except.noConfusion hok
    rename_i u1 pop0 heqp
    split at hok
    · exact Except.noConfusion hok
    rename_i u2 final heqf
    injection hok with hok
    have hpf := Prod.mk.injEq _ _ _ _ ▸ hok
    obtain ⟨hp, hf⟩ : final.bestPath = p ∧ final.bestFitness = f := by
      constructor
      · exact congrArg Prod.fst hok
      · exact congrArg Prod.snd hok
    obtain ⟨sts, mins, htr, hhd, hlast, hlen, hmins, hfold, hchain, hP⟩ :=
      ga_fold_best graph all_start_end_points initial_mutation_rate
        minimum_mutation_rate
        ((initial_mutation_rate - minimum_mutation_rate) / (generations : ℚ)) o
        (List.range generations.toNat) ⟨pop0, [], ⊤⟩ final heqf
    refine ⟨pop0, sts, mins, heqp, htr, hhd, by simpa using hlen, hmins, ?_, ?_,
      ?_, hchain, ⟨final, hlast, hp, hf⟩⟩
    · rw [← hf]
      exact hfold
    · intro hflt
      rcases hP with ⟨_, hat⟩ | ⟨heqbf, _⟩
      · rw [← hp, ← hf]
        exact hat
      · exfalso
        rw [← hf, heqbf] at hflt
        exact lt_irrefl _ hflt
    · intro hftop
      rcases hP with ⟨hlt, _⟩ | ⟨_, heqbp⟩
      · exfalso
        rw [hf, hftop] at hlt
        exact lt_irrefl _ hlt
      · rw [← hp, heqbp]

/-- Fully connected five-node graph with unit weights, used as the witness
input of the driver claims. -/
def wGraph : Graph :=
  [(0, [(1, 1), (2, 1), (3, 1), (4, 1)]),
   (1, [(0, 1), (2, 1), (3, 1), (4, 1)]),
   (2, [(0, 1), (1, 1), (3, 1), (4, 1)]),
   (3, [(0, 1), (1, 1), (2, 1), (4, 1)]),
   (4, [(0, 1), (1, 1), (2, 1), (3, 1)])]

/-- Oracle whose initial-population draws produce three distinct candidates
and whose remaining choices are constant. -/
def wOracle : GAOracle :=
  ⟨fun i _ => i, fun _ _ _ => 0, fun _ _ => ⟨0, 0, 0, 0, 1, ⟨0, 0, 0, 0⟩⟩⟩

/-- Deterministic all-zero oracle. -/
def trivOracle : GAOracle :=
  ⟨fun _ _ => 0, fun _ _ _ => 0, fun _ _ => ⟨0, 0, 0, 0, 1, ⟨0, 0, 0, 0⟩⟩⟩

/-- Two-node graph with a single unit edge each way. -/
def tinyGraph : Graph := [(0, [(1, (1 : ℚ))]), (1, [(0, (1 : ℚ))])]

/-- C1 witness: one generation on the five-node unit graph completes and
returns path `[0, 1, 4]` with fitness 2. -/
theorem c1_run_returns_best_so_far_witness :
    ∃ (pop0 : List (List ℕ)) (sts : List GAState) (mins : List (WithTop ℚ)),
      CreateInitialPopulation 3 wGraph 0 4 3 [0, 4] wOracle.initSample =
        .ok pop0 ∧
      gaTraceGo wGraph [0, 4] 1 0 ((1 - 0) / ((1 : ℤ) : ℚ)) wOracle
        (List.range (1 : ℤ).toNat) ⟨pop0, [], ⊤⟩ = .ok sts ∧
      sts.head? = some ⟨pop0, [], ⊤⟩ ∧
      sts.length = (1 : ℤ).toNat + 1 ∧
      sts.dropLast.mapM (fun s => genMinE wGraph s.population) = .ok mins ∧
      ((2 : WithTop ℚ)) = mins.foldl min ⊤ ∧
      ((2 : WithTop ℚ) < ⊤ →
        calculate_path_distance wGraph [0, 1, 4] = .ok 2) ∧
      ((2 : WithTop ℚ) = ⊤ → ([0, 1, 4] : List ℕ) = []) ∧
      List.Chain' (fun x y => y.bestFitness ≤ x.bestFitness ∧
        (y.bestFitness < x.bestFitness ∨
          (y.bestFitness = x.bestFitness ∧ y.bestPath = x.bestPath))) sts ∧
      (∃ fin : GAState, sts.getLast? = some fin ∧ fin.bestPath = [0, 1, 4] ∧
        fin.bestFitness = 2) :=
  c1_run_returns_best_so_far wGraph 3 0 4 3 1 1 0 [0, 4] wOracle [0, 1, 4] 2
    (by decide)

/-- C1 counterexample: a well-formed input in the claim's sense (consistent
graph, anchors present as keys, `final_path_size = 2`, `generations = 1`)
on which `run_genetic_algorithm` raises instead of returning a best path:
every candidate is `[start, end]`, the deduplicated population collapses to
one member, and tournament sampling raises `ValueError`. -/
theorem c1_counterexample :
    (tinyGraph.lookup 0).isSome ∧ (tinyGraph.lookup 1).isSome ∧
    (2 : ℤ) = 2 ∧ (1 : ℤ) ≥ 1 ∧
    run_genetic_algorithm tinyGraph 5 0 1 2 1 0 0 [0, 1] trivOracle =
      .error .valueError :=
  ⟨rfl, rfl, rfl, by decide, by decide⟩

/-- C4: the code performs no configuration validation.  With the malformed
configuration `generations = -1` (and an otherwise consistent graph) the
run does not fail: Python's `range` simply runs zero generations and the
call returns the initial sentinel `([], +∞)` — a corrupt result rather
than the descriptive error the specification requires. -/
theorem c4_no_validation_failing_input :
    ((-1 : ℤ) ≤ 0) ∧
    run_genetic_algorithm tinyGraph 2 0 1 3 (-1) 0 0 [0, 1] trivOracle =
      .ok ([], ⊤) :=
  ⟨by decide, by decide⟩

/-- C2 (amended): the next generation's population is the bred children
followed by the FIRST `⌊size/2⌋` members of the previous population in its
original order (the code slices `population[:size//2]` without ever
reordering `population`), not the best-fitness members. -/
theorem c2_next_population_amended (graph : Graph)
    (all_start_end_points : List ℕ) (rate : ℚ) (omate : ℕ → ℕ → ℕ)
    (ochild : ℕ → ChildOracle) (st st' : GAState)
    (h : gaStep graph all_start_end_points rate omate ochild st = .ok st') :
    ∃ kids : List (List ℕ),
      kids.length = st.population.length / 2 ∧
      st'.population = kids ++ st.population.take (st.population.length / 2) := by
  obtain ⟨m, _, _, _, _, kids, hk, hp⟩ :=
    gaStep_ok graph all_start_end_points rate omate ochild st st' h
  exact ⟨kids, hk, hp⟩

/-- Graph separating the cheap interior nodes 2, 3 from the expensive
interior node 1. -/
def cexGraph : Graph :=
  [(0, [(1, 20), (2, 1), (3, 1)]),
   (1, [(4, 5)]),
   (2, [(4, 1)]),
   (3, [(4, 1)]),
   (4, [])]

/-- Constant-zero mating oracle. -/
def cexMate : ℕ → ℕ → ℕ := fun _ _ => 0

/-- Constant child oracle whose `random()` draw 1 is never below the rate 0,
so no mutation fires. -/
def cexChild : ℕ → ChildOracle := fun _ => ⟨0, 0, 0, 0, 1, ⟨0, 0, 0, 0⟩⟩

/-- C2 witness: a concrete generation in which the population
`[[0,1,4],[0,2,4],[0,3,4]]` breeds one child and carries over its first
member. -/
theorem c2_next_population_amended_witness :
    ∃ kids : List (List ℕ),
      kids.length = ([[0, 1, 4], [0, 2, 4], [0, 3, 4]] : List (List ℕ)).length / 2 ∧
      (GAState.mk [[0, 2, 4], [0, 1, 4]] [0, 2, 4] 2).population =
        kids ++ ([[0, 1, 4], [0, 2, 4], [0, 3, 4]] : List (List ℕ)).take
          (([[0, 1, 4], [0, 2, 4], [0, 3, 4]] : List (List ℕ)).length / 2) :=
  c2_next_population_amended cexGraph [0, 4] 0 cexMate cexChild
    ⟨[[0, 1, 4], [0, 2, 4], [0, 3, 4]], [], ⊤⟩
    ⟨[[0, 2, 4], [0, 1, 4]], [0, 2, 4], 2⟩ (by decide)

/-- C2 counterexample: in this generation the previous population holds
`[0,1,4]` (fitness 25) first and `[0,2,4]`, `[0,3,4]` (fitness 2) after it;
the code retains `[0,1,4]` — the worst member, by original position — so
the next population is NOT children plus the best-fitness half. -/
theorem c2_counterexample :
    gaStep cexGraph [0, 4] 0 cexMate cexChild
      ⟨[[0, 1, 4], [0, 2, 4], [0, 3, 4]], [], ⊤⟩ =
      .ok ⟨[[0, 2, 4], [0, 1, 4]], [0, 2, 4], 2⟩ ∧
    calculate_path_distance cexGraph [0, 1, 4] = .ok 25 ∧
    calculate_path_distance cexGraph [0, 2, 4] = .ok 2 ∧
    calculate_path_distance cexGraph [0, 3, 4] = .ok 2 ∧
    (2 : WithTop ℚ) < 25 :=
  ⟨by decide, by decide, by decide, by decide, by decide⟩

/-- C5 (amended): elitist replacement preserves the population count only
up to parity: after one generation the population has `2 * ⌊size / 2⌋`
members — the count is preserved exactly when the previous size was even,
and shrinks by one when it was odd. -/
theorem c5_population_size_amended (graph : Graph)
    (all_start_end_points : List ℕ) (rate : ℚ) (omate : ℕ → ℕ → ℕ)
    (ochild : ℕ → ChildOracle) (st st' : GAState)
    (h : gaStep graph all_start_end_points rate omate ochild st = .ok st') :
    st'.population.length = 2 * (st.population.length / 2) := by
  obtain ⟨m, _, _, _, hlen, _⟩ :=
    gaStep_ok graph all_start_end_points rate omate ochild st st' h
  exact hlen

/-- C5 witness: a generation starting from an odd population of three. -/
theorem c5_population_size_amended_witness :
    (GAState.mk [[0, 2, 4], [0, 2, 4]] [0, 2, 4] 2).population.length =
      2 * ((GAState.mk [[0, 2, 4], [0, 1, 4], [0, 3, 4]] [] ⊤).population.length / 2) :=
  c5_population_size_amended cexGraph [0, 4] 0 cexMate cexChild
    ⟨[[0, 2, 4], [0, 1, 4], [0, 3, 4]], [], ⊤⟩
    ⟨[[0, 2, 4], [0, 2, 4]], [0, 2, 4], 2⟩ (by decide)

/-- C5 counterexample: with an odd population of three the replacement step
returns a population of two — the count is not fixed across generations. -/
theorem c5_counterexample :
    gaStep cexGraph [0, 4] 0 cexMate cexChild
      ⟨[[0, 2, 4], [0, 1, 4], [0, 3, 4]], [], ⊤⟩ =
      .ok ⟨[[0, 2, 4], [0, 2, 4]], [0, 2, 4], 2⟩ ∧
    ([[0, 2, 4], [0, 1, 4], [0, 3, 4]] : List (List ℕ)).length = 3 ∧
    ([[0, 2, 4], [0, 2, 4]] : List (List ℕ)).length = 2 ∧
    (3 : ℕ) ≠ 2 :=
  ⟨by decide, rfl, rfl, by decide⟩
